import Mathlib

/-!
Shallow embedding of `src/Pulse_Shaping.py` (HollenLab/VISA-Instrument-Communication).

Modelling conventions:
* `ℝ` stands for Python floats, `ℂ` for numpy `complex128`, `List` for 1-d numpy arrays.
* numpy's elementwise operations (`np.where`, comparisons, `np.divide` with
  `where`/`out`) are modelled pointwise; the claims below are stated per array entry.
* The scipy `CubicSpline` interpolant is an external routine (the spec's "interpolate
  complex values over ordered real keys" interface); it is represented by an abstract
  function `transfer_func : ℝ → ℂ` together with, where a claim needs it, the
  interpolation property it guarantees on the sample points, and its documented
  construction precondition (`cubicSplineValid`).
* Python exceptions are modelled with `Except` (construction errors) and `Option`
  (the `IndexError` raised by `time_int[1]` on a short time axis).
-/

open Complex

/-- Error raised by the underlying interpolation routine when its precondition fails
(scipy `ValueError`; the spec's `InterpolationError`/`ConstructionError`). -/
inductive InterpolationError
  | invalidSamples
deriving DecidableEq

/-- Modelled from the spec: the external cubic-spline routine's documented
construction precondition — sample keys strictly increasing, at least 2 samples. -/
def cubicSplineValid (swept_fs : List ℝ) : Prop :=
  swept_fs.Chain' (· < ·) ∧ 2 ≤ swept_fs.length

noncomputable instance (swept_fs : List ℝ) : Decidable (cubicSplineValid swept_fs) :=
  inferInstanceAs (Decidable (swept_fs.Chain' (· < ·) ∧ 2 ≤ swept_fs.length))

/-- The closure built at `src/Pulse_Shaping.py:51-58`.  `transfer_func` is the cubic
spline interpolant; `arr` a single frequency (numpy broadcasts this elementwise).
The two `np.where` calls become nested if-then-else: the conjugate substitution for
negative frequencies first, then the out-of-bounds zero override. -/
noncomputable def full_transfer_func (transfer_func : ℝ → ℂ) (upper_limit lower_limit : ℝ)
    (arr : ℝ) : ℂ :=
  let answer := transfer_func arr
  let negative := arr < 0
  let out_of_bounds :=
    (arr < -1 * upper_limit ∨ arr > upper_limit) ∨ (arr < lower_limit ∧ arr > -1 * lower_limit)
  let answer := if negative then (starRingEnd ℂ) (transfer_func (-1 * arr)) else answer
  if out_of_bounds then 0 else answer

/-- `make_transfer_func` (`src/Pulse_Shaping.py:25-60`).  The call
`CubicSpline(swept_fs, s21)` is modelled by the abstract interpolant `spline` plus the
routine's construction precondition; a violated precondition surfaces as an
immediate `Except.error` (the exception propagates, nothing catches it).  On success
the source returns the tuple `full_transfer_func, upper_limit, lower_limit`, with
`upper_limit = swept_fs[-1]` and `lower_limit = swept_fs[0]`. -/
noncomputable def make_transfer_func (spline : ℝ → ℂ) (s21 : List ℂ) (swept_fs : List ℝ) :
    Except InterpolationError ((ℝ → ℂ) × ℝ × ℝ) :=
  if cubicSplineValid swept_fs then
    let upper_limit := swept_fs.getD (swept_fs.length - 1) 0
    let lower_limit := swept_fs.getD 0 0
    .ok (full_transfer_func spline upper_limit lower_limit, upper_limit, lower_limit)
  else
    .error .invalidSamples

/-- On valid samples, `make_transfer_func` succeeds and returns the closure together
with the last and first sample frequencies, in source order. -/
lemma make_transfer_func_ok (spline : ℝ → ℂ) (s21 : List ℂ) (swept_fs : List ℝ)
    (h : cubicSplineValid swept_fs) :
    make_transfer_func spline s21 swept_fs =
      .ok (full_transfer_func spline (swept_fs.getD (swept_fs.length - 1) 0) (swept_fs.getD 0 0),
           swept_fs.getD (swept_fs.length - 1) 0, swept_fs.getD 0 0) := by
  simp only [make_transfer_func]
  rw [if_pos h]

/-- Inversion: a successful build forces the components of the returned triple. -/
lemma make_transfer_func_ok_inv (spline : ℝ → ℂ) (s21 : List ℂ) (swept_fs : List ℝ)
    (g : ℝ → ℂ) (u l : ℝ)
    (hok : make_transfer_func spline s21 swept_fs = .ok (g, u, l)) :
    g = full_transfer_func spline u l ∧
      u = swept_fs.getD (swept_fs.length - 1) 0 ∧ l = swept_fs.getD 0 0 ∧
      cubicSplineValid swept_fs := by
  by_cases h : cubicSplineValid swept_fs
  · rw [make_transfer_func_ok spline s21 swept_fs h] at hok
    have h3 : full_transfer_func spline (swept_fs.getD (swept_fs.length - 1) 0)
          (swept_fs.getD 0 0) = g ∧
        swept_fs.getD (swept_fs.length - 1) 0 = u ∧ swept_fs.getD 0 0 = l := by
      simpa only [Except.ok.injEq, Prod.mk.injEq] using hok
    obtain ⟨hg, hu, hl⟩ := h3
    subst hu
    subst hl
    exact ⟨hg.symm, rfl, rfl, h⟩
  · simp only [make_transfer_func] at hok
    rw [if_neg h] at hok
    exact absurd hok (by simp)

/-- The out-of-bounds condition zeroes the output. -/
lemma full_transfer_func_eq_zero (spline : ℝ → ℂ) (u l f : ℝ)
    (hf : |f| > u ∨ (-l < f ∧ f < l)) :
    full_transfer_func spline u l f = 0 := by
  simp only [full_transfer_func]
  rw [if_pos]
  rcases hf with hf | hf
  · left
    rcases lt_abs.mp hf with h | h
    · right; exact h
    · left; linarith
  · right
    exact ⟨hf.2, by linarith [hf.1]⟩

/-- In-band value at a non-negative frequency is the raw interpolant value. -/
lemma full_transfer_func_in_band (spline : ℝ → ℂ) (u l f : ℝ)
    (h0 : 0 ≤ f) (hl : l ≤ f) (hu : f ≤ u) :
    full_transfer_func spline u l f = spline f := by
  have hneg : ¬ (f < 0) := not_lt.mpr h0
  have hu0 : (0:ℝ) ≤ u := le_trans h0 hu
  have hoob : ¬ ((f < -1 * u ∨ f > u) ∨ (f < l ∧ f > -1 * l)) := by
    push_neg
    exact ⟨⟨by linarith, by linarith⟩, fun h1 => absurd h1 (not_lt.mpr hl)⟩
  simp only [full_transfer_func]
  rw [if_neg hoob, if_neg hneg]

/-- In-band value at a strictly negative frequency is the conjugate at the mirror. -/
lemma full_transfer_func_neg (spline : ℝ → ℂ) (u l f : ℝ)
    (h0 : 0 < f) (hl : l ≤ f) (hu : f ≤ u) :
    full_transfer_func spline u l (-f) = (starRingEnd ℂ) (spline f) := by
  have hneg : -f < 0 := neg_lt_zero.mpr h0
  have hu0 : (0:ℝ) < u := lt_of_lt_of_le h0 hu
  have hoob : ¬ ((-f < -1 * u ∨ -f > u) ∨ (-f < l ∧ -f > -1 * l)) := by
    push_neg
    exact ⟨⟨by linarith, by linarith⟩, fun _ => by linarith⟩
  simp only [full_transfer_func]
  rw [if_neg hoob, if_pos hneg]
  have harg : (-1 : ℝ) * -f = f := by ring
  rw [harg]

/-- C2: a model built from samples returns exactly `0 + 0i` at every frequency of
magnitude above `upper_limit`, and at every frequency strictly inside
`(-lower_limit, lower_limit)`. -/
theorem C2_out_of_band_zero (spline : ℝ → ℂ) (s21 : List ℂ) (swept_fs : List ℝ)
    (g : ℝ → ℂ) (u l f : ℝ)
    (hok : make_transfer_func spline s21 swept_fs = .ok (g, u, l))
    (hf : |f| > u ∨ (0 < l ∧ -l < f ∧ f < l)) :
    g f = 0 := by
  obtain ⟨hg, -, -, -⟩ := make_transfer_func_ok_inv spline s21 swept_fs g u l hok
  rw [hg]
  refine full_transfer_func_eq_zero spline u l f ?_
  rcases hf with hf | ⟨-, hf1, hf2⟩
  · exact Or.inl hf
  · exact Or.inr ⟨hf1, hf2⟩

/-- Witness for C2: the model built from samples at frequencies `[1, 2]` vanishes at
`f = 3` (above the band) and at `f = 1/2` (inside the unmeasured DC gap). -/
theorem C2_out_of_band_zero_witness :
    full_transfer_func (fun _ => (1:ℂ)) 2 1 3 = 0 ∧
      full_transfer_func (fun _ => (1:ℂ)) 2 1 (1/2) = 0 := by
  have hv : cubicSplineValid [1, 2] := by
    constructor
    · norm_num [List.chain'_cons]
    · simp
  have hok : make_transfer_func (fun _ => (1:ℂ)) [1, 1] [1, 2] =
      .ok (full_transfer_func (fun _ => (1:ℂ)) 2 1, 2, 1) := by
    simpa using make_transfer_func_ok (fun _ => (1:ℂ)) [1, 1] [1, 2] hv
  constructor
  · exact C2_out_of_band_zero (fun _ => (1:ℂ)) [1, 1] [1, 2] _ 2 1 3 hok
      (Or.inl (by norm_num))
  · exact C2_out_of_band_zero (fun _ => (1:ℂ)) [1, 1] [1, 2] _ 2 1 (1/2) hok
      (Or.inr (by norm_num))

/-- Entries of a strictly increasing list are monotone in the index (getD view). -/
lemma chain'_lt_getD_mono (fs : List ℝ) (h : fs.Chain' (· < ·)) (i j : ℕ)
    (hij : i ≤ j) (hj : j < fs.length) :
    fs.getD i 0 ≤ fs.getD j 0 := by
  have hp : fs.Pairwise (· < ·) := List.chain'_iff_pairwise.mp h
  rcases eq_or_lt_of_le hij with rfl | hlt
  · exact le_refl _
  · have hi : i < fs.length := lt_trans hlt hj
    rw [List.getD_eq_getElem fs 0 hi, List.getD_eq_getElem fs 0 hj]
    exact le_of_lt ((List.pairwise_iff_getElem.mp hp) i j hi hj hlt)

/-- C3 (counterexample): the model built from the valid samples `(0, i), (2, i)` —
the constant interpolant `f ↦ i` is the cubic spline through them — violates
conjugate symmetry at the in-band frequency `f = 0`: `evaluate(-0) = evaluate(0) = i`,
whereas the conjugate is `-i`. -/
theorem C3_conj_symmetry_counterexample :
    make_transfer_func (fun _ => Complex.I) [Complex.I, Complex.I] [0, 2]
      = .ok (full_transfer_func (fun _ => Complex.I) 2 0, 2, 0)
    ∧ |(0:ℝ)| ≤ 2
    ∧ full_transfer_func (fun _ => Complex.I) 2 0 (-0)
        ≠ (starRingEnd ℂ) (full_transfer_func (fun _ => Complex.I) 2 0 0) := by
  refine ⟨?_, by norm_num, ?_⟩
  · have hv : cubicSplineValid [0, 2] := ⟨by norm_num [List.chain'_cons], by simp⟩
    simpa using make_transfer_func_ok (fun _ => Complex.I) [Complex.I, Complex.I] [0, 2] hv
  · have h1 : full_transfer_func (fun _ => Complex.I) 2 0 0 = Complex.I :=
      full_transfer_func_in_band (fun _ => Complex.I) 2 0 0 le_rfl le_rfl (by norm_num)
    rw [neg_zero, h1, Complex.conj_I]
    intro hcontra
    have him := congrArg Complex.im hcontra
    norm_num at him

/-- Symmetry of the source's out-of-bounds condition under frequency negation. -/
lemma out_of_bounds_symm (u l f : ℝ) :
    ((-f < -1 * u ∨ -f > u) ∨ (-f < l ∧ -f > -1 * l)) ↔
    ((f < -1 * u ∨ f > u) ∨ (f < l ∧ f > -1 * l)) := by
  constructor
  · rintro ((h | h) | ⟨h1, h2⟩)
    · exact Or.inl (Or.inr (by linarith))
    · exact Or.inl (Or.inl (by linarith))
    · exact Or.inr ⟨by linarith, by linarith⟩
  · rintro ((h | h) | ⟨h1, h2⟩)
    · exact Or.inl (Or.inr (by linarith))
    · exact Or.inl (Or.inl (by linarith))
    · exact Or.inr ⟨by linarith, by linarith⟩

/-- C3 (amended): conjugate symmetry holds at every nonzero frequency of magnitude
at most `upper_limit`; at `f = 0` the code returns the raw interpolant value on both
sides, so symmetry there requires a real DC response. -/
theorem C3_conj_symmetry_amended (spline : ℝ → ℂ) (u l f : ℝ)
    (hf : |f| ≤ u) (h0 : f ≠ 0) :
    full_transfer_func spline u l (-f) =
      (starRingEnd ℂ) (full_transfer_func spline u l f) := by
  simp only [full_transfer_func]
  rcases lt_trichotomy f 0 with hlt | heq | hgt
  · by_cases hb : ((f < -1 * u ∨ f > u) ∨ (f < l ∧ f > -1 * l))
    · rw [if_pos ((out_of_bounds_symm u l f).mpr hb), if_pos hb]
      simp
    · rw [if_neg (fun hc => hb ((out_of_bounds_symm u l f).mp hc)), if_neg hb]
      rw [if_neg (by linarith : ¬ -f < 0), if_pos hlt]
      rw [Complex.conj_conj]
      have harg : (-1 : ℝ) * f = -f := by ring
      rw [harg]
  · exact absurd heq h0
  · by_cases hb : ((f < -1 * u ∨ f > u) ∨ (f < l ∧ f > -1 * l))
    · rw [if_pos ((out_of_bounds_symm u l f).mpr hb), if_pos hb]
      simp
    · rw [if_neg (fun hc => hb ((out_of_bounds_symm u l f).mp hc)), if_neg hb]
      rw [if_pos (by linarith : -f < 0), if_neg (by linarith : ¬ f < 0)]
      have harg : (-1 : ℝ) * -f = f := by ring
      rw [harg]

/-- Witness for the amended C3 at the in-band frequency `f = 1` of a band `[0, 1]`. -/
theorem C3_conj_symmetry_amended_witness :
    full_transfer_func (fun _ => Complex.I) 1 0 (-1) =
      (starRingEnd ℂ) (full_transfer_func (fun _ => Complex.I) 1 0 1) :=
  C3_conj_symmetry_amended (fun _ => Complex.I) 1 0 1 (by norm_num) (by norm_num)

/-- C5 (counterexample): built from frequencies `[3, 7]`, the source returns the
triple `(model, 7, 3)` — upper limit (last frequency) second, lower limit (first
frequency) third — not `(model, lower_limit, upper_limit)` as claimed. -/
theorem C5_return_order_counterexample :
    make_transfer_func (fun _ => (1:ℂ)) [1, 1] [3, 7]
      = .ok (full_transfer_func (fun _ => (1:ℂ)) 7 3, 7, 3) ∧ (7:ℝ) ≠ 3 := by
  refine ⟨?_, by norm_num⟩
  have hv : cubicSplineValid [3, 7] := ⟨by norm_num [List.chain'_cons], by simp⟩
  simpa using make_transfer_func_ok (fun _ => (1:ℂ)) [1, 1] [3, 7] hv

/-- C5 (amended): on any valid sample sequence the build returns the triple
`(model, upper_limit, lower_limit)` in that order, where `upper_limit` is the last
sample frequency and `lower_limit` the first. -/
theorem C5_return_order_amended (spline : ℝ → ℂ) (s21 : List ℂ) (swept_fs : List ℝ)
    (h : cubicSplineValid swept_fs) :
    make_transfer_func spline s21 swept_fs =
      .ok (full_transfer_func spline (swept_fs.getD (swept_fs.length - 1) 0)
             (swept_fs.getD 0 0),
           swept_fs.getD (swept_fs.length - 1) 0, swept_fs.getD 0 0) :=
  make_transfer_func_ok spline s21 swept_fs h

/-- Witness for the amended C5 on the concrete sweep `[0, 5]`. -/
theorem C5_return_order_amended_witness :
    make_transfer_func (fun _ => (1:ℂ)) [1, 1] [0, 5]
      = .ok (full_transfer_func (fun _ => (1:ℂ))
               (([0, 5] : List ℝ).getD (([0, 5] : List ℝ).length - 1) 0)
               (([0, 5] : List ℝ).getD 0 0),
             ([0, 5] : List ℝ).getD (([0, 5] : List ℝ).length - 1) 0,
             ([0, 5] : List ℝ).getD 0 0) :=
  C5_return_order_amended (fun _ => (1:ℂ)) [1, 1] [0, 5]
    ⟨by norm_num [List.chain'_cons], by simp⟩

/-- C8 (counterexample): with the valid samples `(0, i), (1, i)` (constant cubic
spline `f ↦ i`), the model does not return the conjugate of the stored response at
the negated sample frequency `-f_0 = -0`: it returns `i`, not `conj i = -i`. -/
theorem C8_interp_fidelity_counterexample :
    make_transfer_func (fun _ => Complex.I) [Complex.I, Complex.I] [0, 1]
      = .ok (full_transfer_func (fun _ => Complex.I) 1 0, 1, 0)
    ∧ full_transfer_func (fun _ => Complex.I) 1 0 (-(([0, 1] : List ℝ).getD 0 0))
        ≠ (starRingEnd ℂ) (([Complex.I, Complex.I] : List ℂ).getD 0 0) := by
  constructor
  · have hv : cubicSplineValid [0, 1] := ⟨by norm_num [List.chain'_cons], by simp⟩
    simpa using make_transfer_func_ok (fun _ => Complex.I) [Complex.I, Complex.I] [0, 1] hv
  · have h1 : full_transfer_func (fun _ => Complex.I) 1 0 0 = Complex.I :=
      full_transfer_func_in_band (fun _ => Complex.I) 1 0 0 le_rfl le_rfl (by norm_num)
    have hget : (([0, 1] : List ℝ).getD 0 0) = 0 := by simp
    rw [hget, neg_zero, h1]
    simp only [List.getD_cons_zero, Complex.conj_I]
    intro hcontra
    have him := congrArg Complex.im hcontra
    norm_num at him

/-- C8 (amended): provided the interpolant reproduces the stored samples (the
external spline routine's contract) and the sweep starts at a non-negative
frequency, the model returns the stored response at every sample frequency; at the
negated frequency it returns the conjugate response when the sample frequency is
positive, and the raw (unconjugated) response when the sample frequency is zero. -/
theorem C8_interp_fidelity_amended (spline : ℝ → ℂ) (s21 : List ℂ) (swept_fs : List ℝ)
    (g : ℝ → ℂ) (u l : ℝ) (i : ℕ)
    (hok : make_transfer_func spline s21 swept_fs = .ok (g, u, l))
    (hinterp : ∀ j, j < swept_fs.length → spline (swept_fs.getD j 0) = s21.getD j 0)
    (h0 : 0 ≤ swept_fs.getD 0 0)
    (hi : i < swept_fs.length) :
    g (swept_fs.getD i 0) = s21.getD i 0 ∧
      (0 < swept_fs.getD i 0 →
        g (-(swept_fs.getD i 0)) = (starRingEnd ℂ) (s21.getD i 0)) ∧
      (swept_fs.getD i 0 = 0 → g (-(swept_fs.getD i 0)) = s21.getD i 0) := by
  obtain ⟨hg, hu, hl, hchain, hlen⟩ :
      g = full_transfer_func spline u l ∧
        u = swept_fs.getD (swept_fs.length - 1) 0 ∧ l = swept_fs.getD 0 0 ∧
        swept_fs.Chain' (· < ·) ∧ 2 ≤ swept_fs.length := by
    obtain ⟨a, b, c, d⟩ := make_transfer_func_ok_inv spline s21 swept_fs g u l hok
    exact ⟨a, b, c, d.1, d.2⟩
  have hlast : swept_fs.length - 1 < swept_fs.length := by omega
  have hlow : l ≤ swept_fs.getD i 0 := by
    rw [hl]
    exact chain'_lt_getD_mono swept_fs hchain 0 i (Nat.zero_le i) hi
  have hhigh : swept_fs.getD i 0 ≤ u := by
    rw [hu]
    exact chain'_lt_getD_mono swept_fs hchain i (swept_fs.length - 1) (by omega) hlast
  have hnn : 0 ≤ swept_fs.getD i 0 := le_trans h0 (by rw [← hl] at h0 ⊢; exact hlow)
  have hbase : g (swept_fs.getD i 0) = s21.getD i 0 := by
    rw [hg, full_transfer_func_in_band spline u l _ hnn hlow hhigh]
    exact hinterp i hi
  refine ⟨hbase, ?_, ?_⟩
  · intro hpos
    rw [hg, full_transfer_func_neg spline u l _ hpos hlow hhigh, hinterp i hi]
  · intro hzero
    rw [hzero, neg_zero, ← hzero, hbase]

/-- Witness for the amended C8 on the sweep `[1, 2]` with unit responses, at the
first sample (index 0, frequency 1). -/
theorem C8_interp_fidelity_amended_witness :
    full_transfer_func (fun _ => (1:ℂ)) 2 1 (([1, 2] : List ℝ).getD 0 0)
        = ([1, 1] : List ℂ).getD 0 0 ∧
      (0 < ([1, 2] : List ℝ).getD 0 0 →
        full_transfer_func (fun _ => (1:ℂ)) 2 1 (-(([1, 2] : List ℝ).getD 0 0))
          = (starRingEnd ℂ) (([1, 1] : List ℂ).getD 0 0)) ∧
      (([1, 2] : List ℝ).getD 0 0 = 0 →
        full_transfer_func (fun _ => (1:ℂ)) 2 1 (-(([1, 2] : List ℝ).getD 0 0))
          = ([1, 1] : List ℂ).getD 0 0) := by
  have hok : make_transfer_func (fun _ => (1:ℂ)) [1, 1] [1, 2] =
      .ok (full_transfer_func (fun _ => (1:ℂ)) 2 1, 2, 1) := by
    have hv : cubicSplineValid [1, 2] := ⟨by norm_num [List.chain'_cons], by simp⟩
    simpa using make_transfer_func_ok (fun _ => (1:ℂ)) [1, 1] [1, 2] hv
  exact C8_interp_fidelity_amended (fun _ => (1:ℂ)) [1, 1] [1, 2]
    (full_transfer_func (fun _ => (1:ℂ)) 2 1) 2 1 0 hok
    (by intro j hj; simp only [List.length_cons, List.length_nil] at hj
        interval_cases j <;> simp) (by simp) (by simp)

/-- C9: building the model reports an `InterpolationError` exactly when the sample
frequencies are not strictly increasing (this subsumes duplicates) or number fewer
than 2; construction succeeds on every strictly increasing sequence of at least 2
samples.  The validation itself belongs to the external interpolation routine and is
modelled from its documented contract (`cubicSplineValid`). -/
theorem C9_construction_validation (spline : ℝ → ℂ) (s21 : List ℂ) (swept_fs : List ℝ) :
    (∃ e, make_transfer_func spline s21 swept_fs = .error e) ↔
      ¬ (swept_fs.Chain' (· < ·) ∧ 2 ≤ swept_fs.length) := by
  constructor
  · rintro ⟨e, he⟩ hval
    rw [make_transfer_func_ok spline s21 swept_fs hval] at he
    exact absurd he (by simp)
  · intro hval
    refine ⟨.invalidSamples, ?_⟩
    simp only [make_transfer_func]
    rw [if_neg (show ¬ cubicSplineValid swept_fs from hval)]

/-- `scipy.fft.fftfreq(n, d)` bin `k` (`src/Pulse_Shaping.py:89`): non-negative
frequencies `k/(n·d)` for `k ≤ (n-1)/2` (integer division), then the wrap-around
negative frequencies `(k-n)/(n·d)`. -/
noncomputable def fftfreq (n : ℕ) (d : ℝ) (k : ℕ) : ℝ :=
  if k ≤ (n - 1) / 2 then (k : ℝ) / (n * d) else ((k : ℝ) - n) / (n * d)

/-- Bin `k` of the forward DFT of `x` (numpy convention, negative exponent). -/
noncomputable def fftEntry (x : List ℂ) (k : ℕ) : ℂ :=
  ∑ m ∈ Finset.range x.length,
    x.getD m 0 * Complex.exp (-(2 * Real.pi * Complex.I) * k * m / x.length)

/-- `scipy.fft.fft`: forward DFT of a complex sequence. -/
noncomputable def fft (x : List ℂ) : List ℂ := (List.range x.length).map (fftEntry x)

/-- Sample `m` of the inverse DFT of `x` (numpy convention, `1/n` normalisation). -/
noncomputable def ifftEntry (x : List ℂ) (m : ℕ) : ℂ :=
  ((x.length : ℂ))⁻¹ *
    ∑ k ∈ Finset.range x.length,
      x.getD k 0 * Complex.exp (2 * Real.pi * Complex.I * k * m / x.length)

/-- `scipy.fft.ifft`: inverse DFT of a complex sequence. -/
noncomputable def ifft (x : List ℂ) : List ℂ := (List.range x.length).map (ifftEntry x)

lemma fft_length (x : List ℂ) : (fft x).length = x.length := by
  simp [fft]

lemma ifft_length (x : List ℂ) : (ifft x).length = x.length := by
  simp [ifft]

lemma fft_getD (x : List ℂ) (k : ℕ) (hk : k < x.length) :
    (fft x).getD k 0 = fftEntry x k := by
  rw [fft, List.getD_eq_getElem _ 0 (by simpa using hk)]
  simp

/-- Orthogonality of the DFT kernels: summing the inverse kernel at bin `m` against
the forward kernel at bin `j` over all `n` bins gives `n` on the diagonal, `0` off it. -/
lemma exp_sum_orthogonal (n j m : ℕ) (hn : 0 < n) (hj : j < n) (hm : m < n) :
    ∑ k ∈ Finset.range n,
      Complex.exp (2 * Real.pi * Complex.I * k * m / n) *
        Complex.exp (-(2 * Real.pi * Complex.I) * k * j / n)
      = if m = j then (n : ℂ) else 0 := by
  have hn0 : (n : ℂ) ≠ 0 := Nat.cast_ne_zero.mpr hn.ne'
  have hcomb : ∀ k : ℕ,
      Complex.exp (2 * Real.pi * Complex.I * k * m / n) *
        Complex.exp (-(2 * Real.pi * Complex.I) * k * j / n)
      = Complex.exp (2 * Real.pi * Complex.I * ((m : ℂ) - j) / n) ^ k := by
    intro k
    rw [← Complex.exp_nat_mul, ← Complex.exp_add]
    congr 1
    field_simp
    ring
  simp only [hcomb]
  by_cases hmj : m = j
  · subst hmj
    simp [sub_self, Complex.exp_zero]
  · have hzn : Complex.exp (2 * Real.pi * Complex.I * ((m : ℂ) - j) / n) ^ n = 1 := by
      rw [← Complex.exp_nat_mul]
      have harg : (n : ℂ) * (2 * Real.pi * Complex.I * ((m : ℂ) - j) / n)
          = (((m : ℤ) - (j : ℤ) : ℤ) : ℂ) * (2 * Real.pi * Complex.I) := by
        push_cast
        field_simp
        ring
      rw [harg, Complex.exp_int_mul_two_pi_mul_I]
    have hpi : (2 * (Real.pi : ℂ) * Complex.I) ≠ 0 := by
      simp [Real.pi_ne_zero, Complex.I_ne_zero]
    have hz1 : Complex.exp (2 * Real.pi * Complex.I * ((m : ℂ) - j) / n) ≠ 1 := by
      intro h1
      obtain ⟨t, ht⟩ := Complex.exp_eq_one_iff.mp h1
      have h2 : 2 * (Real.pi : ℂ) * Complex.I * ((m : ℂ) - j)
          = 2 * (Real.pi : ℂ) * Complex.I * ((t : ℂ) * n) := by
        field_simp at ht
        linear_combination ht
      have heq : ((m : ℂ) - j) = (t : ℂ) * n := mul_left_cancel₀ hpi h2
      have hint : (m : ℤ) - j = t * n := by exact_mod_cast heq
      have hne : (m : ℤ) - j ≠ 0 := by
        intro h0
        exact hmj (by omega)
      have ht0 : t ≠ 0 := by
        intro h0
        subst h0
        simp at hint
        exact hne hint
      have h1n : (1 : ℤ) ≤ |t| := Int.one_le_abs ht0
      have hlt : |(m : ℤ) - (j : ℤ)| < (n : ℤ) := by
        rw [abs_lt]
        constructor <;> omega
      have hge : (n : ℤ) ≤ |(m : ℤ) - (j : ℤ)| := by
        rw [hint, abs_mul, abs_of_nonneg (show (0:ℤ) ≤ (n:ℤ) by positivity)]
        exact le_mul_of_one_le_left (by positivity) h1n
      linarith
    rw [geom_sum_eq hz1 n, hzn]
    simp [hmj]

/-- numpy round trip: the inverse DFT undoes the forward DFT exactly. -/
lemma ifft_fft (x : List ℂ) : ifft (fft x) = x := by
  rcases Nat.eq_zero_or_pos x.length with h0 | hn
  · have hx : x = [] := List.length_eq_zero.mp h0
    subst hx
    simp [ifft, fft]
  · have hn0 : (x.length : ℂ) ≠ 0 := Nat.cast_ne_zero.mpr hn.ne'
    apply List.ext_getElem
    · simp [ifft, fft]
    · intro m hm1 hm2'
      have hm2 : m < x.length := by simpa [ifft, fft] using hm1
      simp only [ifft, List.getElem_map, List.getElem_range, ifftEntry, fft_length]
      have hstep1 : ∀ k ∈ Finset.range x.length,
          (fft x).getD k 0 * Complex.exp (2 * Real.pi * Complex.I * k * m / x.length)
          = ∑ j ∈ Finset.range x.length,
              x.getD j 0 * (Complex.exp (2 * Real.pi * Complex.I * k * m / x.length) *
                Complex.exp (-(2 * Real.pi * Complex.I) * k * j / x.length)) := by
        intro k hk
        rw [fft_getD x k (Finset.mem_range.mp hk), fftEntry, Finset.sum_mul]
        exact Finset.sum_congr rfl fun j hj => by ring
      rw [Finset.sum_congr rfl hstep1, Finset.sum_comm]
      have hstep2 : ∀ j ∈ Finset.range x.length,
          (∑ k ∈ Finset.range x.length,
            x.getD j 0 * (Complex.exp (2 * Real.pi * Complex.I * k * m / x.length) *
              Complex.exp (-(2 * Real.pi * Complex.I) * k * j / x.length)))
          = x.getD j 0 * (if m = j then (x.length : ℂ) else 0) := by
        intro j hj
        rw [← Finset.mul_sum,
            exp_sum_orthogonal x.length j m hn (Finset.mem_range.mp hj) hm2]
      rw [Finset.sum_congr rfl hstep2]
      rw [Finset.sum_eq_single m
          (fun b _ hb => by rw [if_neg (fun h => hb h.symm), mul_zero])
          (fun hnotin => absurd (Finset.mem_range.mpr hm2) hnotin)]
      rw [if_pos rfl, List.getD_eq_getElem x 0 hm2]
      field_simp

/-- The spectrum computed inside `shape_pulse` (`src/Pulse_Shaping.py:91-93`):
`np.divide(fft(pulse), transfer_array, where=|H| > scaling_limit, out=zeros)` —
bin `k` is `P[k]/H[k]` where the mask holds and the untouched `out` value `0`
elsewhere, with `H[k] = transfer_func(fftfreq(len(pulse), dt)[k])`. -/
noncomputable def shaped_spectrum (pulse : List ℂ) (dt : ℝ) (transfer_func : ℝ → ℂ)
    (scaling_limit : ℝ) : List ℂ :=
  (List.range pulse.length).map fun k =>
    if Complex.abs (transfer_func (fftfreq pulse.length dt k)) > scaling_limit then
      (fft pulse).getD k 0 / transfer_func (fftfreq pulse.length dt k)
    else 0

/-- `shape_pulse` (`src/Pulse_Shaping.py:62-94`).  The source reads only
`time_int[1] - time_int[0]`; a time axis shorter than 2 entries raises `IndexError`
(modelled as `none`).  No validation relates the pulse and time-axis lengths. -/
noncomputable def shape_pulse (pulse : List ℂ) (time_int : List ℝ) (transfer_func : ℝ → ℂ)
    (scaling_limit : ℝ) : Option (List ℂ) :=
  if 2 ≤ time_int.length then
    some (ifft (shaped_spectrum pulse (time_int.getD 1 0 - time_int.getD 0 0)
      transfer_func scaling_limit))
  else
    none

lemma shaped_spectrum_length (pulse : List ℂ) (dt : ℝ) (tf : ℝ → ℂ) (sl : ℝ) :
    (shaped_spectrum pulse dt tf sl).length = pulse.length := by
  simp [shaped_spectrum]

/-- Reading every index of a list back off with `getD` reproduces the list. -/
lemma range_map_getD (l : List ℂ) :
    (List.range l.length).map (fun k => l.getD k 0) = l := by
  apply List.ext_getElem
  · simp
  · intro i h1 h2
    simp [List.getD_eq_getElem l 0 h2, List.getElem?_eq_getElem h2]

/-- C1: each bin of the shaped-pulse spectrum is `P[k]/H[k]` when `|H[k]|` exceeds
`scaling_limit` and exactly `0` otherwise; whenever a division happens the divisor
is nonzero (given `scaling_limit > 0`), so no undefined value is ever produced —
the real-arithmetic counterpart of "no NaN/Inf in the output". -/
theorem C1_stability_clamp (pulse : List ℂ) (dt : ℝ) (tf : ℝ → ℂ) (sl : ℝ) (k : ℕ)
    (hk : k < pulse.length) (hsl : 0 < sl) :
    (sl < Complex.abs (tf (fftfreq pulse.length dt k)) →
        (shaped_spectrum pulse dt tf sl).getD k 0
          = (fft pulse).getD k 0 / tf (fftfreq pulse.length dt k)
        ∧ tf (fftfreq pulse.length dt k) ≠ 0)
    ∧ (Complex.abs (tf (fftfreq pulse.length dt k)) ≤ sl →
        (shaped_spectrum pulse dt tf sl).getD k 0 = 0) := by
  have hget : (shaped_spectrum pulse dt tf sl).getD k 0
      = if Complex.abs (tf (fftfreq pulse.length dt k)) > sl then
          (fft pulse).getD k 0 / tf (fftfreq pulse.length dt k) else 0 := by
    rw [shaped_spectrum, List.getD_eq_getElem _ 0 (by simpa using hk)]
    simp
  constructor
  · intro habs
    rw [hget, if_pos habs]
    refine ⟨rfl, fun h0 => ?_⟩
    rw [h0] at habs
    simp only [map_zero] at habs
    linarith
  · intro habs
    rw [hget, if_neg (not_lt.mpr habs)]

/-- Witness for C1 on the one-sample pulse `[1]` with the unit channel. -/
theorem C1_stability_clamp_witness :
    ((1/2 : ℝ) < Complex.abs ((fun _ => (1:ℂ)) (fftfreq ([(1:ℂ)]).length 1 0)) →
        (shaped_spectrum [(1:ℂ)] 1 (fun _ => (1:ℂ)) (1/2)).getD 0 0
          = (fft [(1:ℂ)]).getD 0 0 / (fun _ => (1:ℂ)) (fftfreq ([(1:ℂ)]).length 1 0)
        ∧ (fun _ => (1:ℂ)) (fftfreq ([(1:ℂ)]).length 1 0) ≠ 0)
    ∧ (Complex.abs ((fun _ => (1:ℂ)) (fftfreq ([(1:ℂ)]).length 1 0)) ≤ 1/2 →
        (shaped_spectrum [(1:ℂ)] 1 (fun _ => (1:ℂ)) (1/2)).getD 0 0 = 0) :=
  C1_stability_clamp [(1:ℂ)] 1 (fun _ => (1:ℂ)) (1/2) 0 (by simp) (by norm_num)

/-- C4 (counterexample): with a 2-sample pulse and a 3-entry time axis — lengths
differ — `shape_pulse` raises nothing and returns a result; no
`ShapeMismatchError` exists anywhere in the source. -/
theorem C4_no_shape_check_counterexample :
    ([(1:ℂ), 0] : List ℂ).length ≠ ([0, 1, 2] : List ℝ).length ∧
      (shape_pulse [(1:ℂ), 0] [0, 1, 2] (fun _ => 1) (1/10)).isSome = true := by
  constructor
  · simp
  · simp only [shape_pulse]
    rw [if_pos (by simp)]
    rfl

/-- C4 (amended): `shape_pulse` performs no length validation: whenever the time
axis has at least two entries it returns normally, regardless of any mismatch with
the pulse length (equal lengths are an unenforced precondition). -/
theorem C4_no_shape_check_amended (pulse : List ℂ) (time_int : List ℝ) (tf : ℝ → ℂ)
    (sl : ℝ) (h2 : 2 ≤ time_int.length) :
    (shape_pulse pulse time_int tf sl).isSome = true := by
  simp only [shape_pulse]
  rw [if_pos h2]
  rfl

/-- Witness for the amended C4: a 3-sample pulse against a 2-entry time axis. -/
theorem C4_no_shape_check_amended_witness :
    (shape_pulse [(1:ℂ), 0, 0] [0, 1] (fun _ => 1) (1/10)).isSome = true :=
  C4_no_shape_check_amended [(1:ℂ), 0, 0] [0, 1] (fun _ => 1) (1/10) (by simp)

/-- C6: under the identity channel (`H ≡ 1`) and any `scaling_limit < 1`,
`shape_pulse` reproduces the input pulse exactly (exact in real arithmetic; the
claim's floating-point tolerance has no counterpart here). -/
theorem C6_identity_channel (pulse : List ℂ) (time_int : List ℝ) (sl : ℝ)
    (h2 : 2 ≤ pulse.length) (hlen : pulse.length = time_int.length) (hsl : sl < 1) :
    shape_pulse pulse time_int (fun _ => 1) sl = some pulse := by
  have ht2 : 2 ≤ time_int.length := hlen ▸ h2
  simp only [shape_pulse]
  rw [if_pos ht2]
  have hspec : shaped_spectrum pulse (time_int.getD 1 0 - time_int.getD 0 0)
      (fun _ => 1) sl = fft pulse := by
    simp only [shaped_spectrum]
    have hpt : ∀ k ∈ List.range pulse.length,
        (if Complex.abs ((fun _ => (1:ℂ))
              (fftfreq pulse.length (time_int.getD 1 0 - time_int.getD 0 0) k)) > sl then
          (fft pulse).getD k 0 / (fun _ => (1:ℂ))
              (fftfreq pulse.length (time_int.getD 1 0 - time_int.getD 0 0) k)
        else 0) = (fft pulse).getD k 0 := by
      intro k _
      rw [if_pos (by simpa using hsl), div_one]
    rw [List.map_congr_left hpt,
        show pulse.length = (fft pulse).length from (fft_length pulse).symm,
        range_map_getD (fft pulse)]
  rw [hspec, ifft_fft]

/-- Witness for C6: the pulse `[1, 0]` over the time axis `[0, 1]` survives the
identity channel untouched. -/
theorem C6_identity_channel_witness :
    shape_pulse [(1:ℂ), 0] [0, 1] (fun _ => 1) (1/2) = some [(1:ℂ), 0] :=
  C6_identity_channel [(1:ℂ), 0] [0, 1] (1/2) (by simp) (by simp) (by norm_num)

/-- C7: on well-formed input, `shape_pulse` returns an array with exactly as many
samples as the input pulse. -/
theorem C7_length_preserved (pulse : List ℂ) (time_int : List ℝ) (tf : ℝ → ℂ) (sl : ℝ)
    (h2 : 2 ≤ pulse.length) (hlen : pulse.length = time_int.length) (hsl : 0 < sl) :
    Option.map List.length (shape_pulse pulse time_int tf sl) = some pulse.length := by
  have ht2 : 2 ≤ time_int.length := hlen ▸ h2
  simp only [shape_pulse]
  rw [if_pos ht2]
  simp [ifft_length, shaped_spectrum_length]

/-- Witness for C7 on the pulse `[2, 3]` with time axis `[0, 1]`. -/
theorem C7_length_preserved_witness :
    Option.map List.length (shape_pulse [(2:ℂ), 3] [0, 1] (fun _ => 1) (1/10))
      = some ([(2:ℂ), 3] : List ℂ).length :=
  C7_length_preserved [(2:ℂ), 3] [0, 1] (fun _ => 1) (1/10) (by simp) (by simp)
    (by norm_num)

/-- C10: the output of `shape_pulse` depends on the time axis only through
`time_int[1] - time_int[0]` — any two axes of length at least 2 with the same
leading difference give identical results, whatever their other entries or
lengths. -/
theorem C10_dt_only_dependence (pulse : List ℂ) (tf : ℝ → ℂ) (sl : ℝ)
    (t1 t2 : List ℝ) (h1 : 2 ≤ t1.length) (h2 : 2 ≤ t2.length)
    (hdt : t1.getD 1 0 - t1.getD 0 0 = t2.getD 1 0 - t2.getD 0 0) :
    shape_pulse pulse t1 tf sl = shape_pulse pulse t2 tf sl := by
  simp only [shape_pulse]
  rw [if_pos h1, if_pos h2, hdt]

/-- Witness for C10: the axes `[0, 1]` and `[5, 6, 7]` share `dt = 1` and give the
same shaped pulse. -/
theorem C10_dt_only_dependence_witness :
    shape_pulse [(1:ℂ), 0] [0, 1] (fun _ => 1) (1/10)
      = shape_pulse [(1:ℂ), 0] [5, 6, 7] (fun _ => 1) (1/10) :=
  C10_dt_only_dependence [(1:ℂ), 0] (fun _ => 1) (1/10) [0, 1] [5, 6, 7]
    (by simp) (by simp) (by norm_num)
